import Mathlib

/-!
# Verification of the TPD analyser data pipeline (`backend/data_manager.py`)

This file gives a shallow embedding of the data pipeline of the TPD analyser:
file parsing into channel tables, linear-region detection and trimming, dosage
extraction and the integration engine, all from `DataManager` in
`src/backend/data_manager.py`.  Machine floats are modelled as rationals (`ℚ`);
Python dictionaries are modelled as insertion-ordered association lists;
a raised exception is modelled as `none` / an explicit early-return state.
Theorems about the embedded definitions settle the specification claims.
-/

namespace TPD

/-! ## Python dictionaries as insertion-ordered association lists

`dinsert` mirrors Python dict assignment `m[k] = v`: if the key is present its
value is updated in place (insertion position kept), otherwise the pair is
appended at the end.  `dlookup` mirrors `m[k]` / `m.get(k)`. -/

def dlookup {κ α : Type} [DecidableEq κ] : List (κ × α) → κ → Option α
  | [], _ => none
  | p :: rest, k => if p.1 = k then some p.2 else dlookup rest k

def dinsert {κ α : Type} [DecidableEq κ] : List (κ × α) → κ → α → List (κ × α)
  | [], k, v => [(k, v)]
  | p :: rest, k, v => if p.1 = k then (k, v) :: rest else p :: dinsert rest k v

def dcontains {κ α : Type} [DecidableEq κ] (m : List (κ × α)) (k : κ) : Bool :=
  (dlookup m k).isSome

/-! ## String helpers

Models of the Python string operations used by `data_manager.py`:
`str.strip`, substring membership (`"Temp" in df_name`), `str.replace(",", ".")`
and `float(...)` on plain decimal literals. -/

def isSpaceChar (c : Char) : Bool :=
  c = ' ' || c = '\t' || c = '\n' || c = '\r'

def strTrim (s : String) : String :=
  String.mk (((s.data.dropWhile isSpaceChar).reverse.dropWhile isSpaceChar).reverse)

def startsWithChars : List Char → List Char → Bool
  | [], _ => true
  | _ :: _, [] => false
  | a :: as, b :: bs => a = b && startsWithChars as bs

/-- `strContains hay needle` models the Python test `needle in hay`. -/
def strContains (hay needle : String) : Bool :=
  hay.data.tails.any (fun t => startsWithChars needle.data t)

def digitVal (c : Char) : ℚ := ((c.toNat - 48 : Nat) : ℚ)

def digitsVal (cs : List Char) : ℚ :=
  cs.foldl (fun a c => 10 * a + digitVal c) 0

def allDigits (cs : List Char) : Bool := cs.all Char.isDigit

/-- Model of Python `float(...)` restricted to plain decimal literals
(optional leading minus, digits, at most one dot).  `data_manager.py` only ever
feeds it comma-normalised numeric tokens. -/
def parseDecimalChars (cs : List Char) : Option ℚ :=
  let neg : Bool := match cs with
    | c :: _ => c = '-'
    | [] => false
  let body := if neg then cs.tail else cs
  let w := body.takeWhile (fun c => decide (c ≠ '.'))
  match body.dropWhile (fun c => decide (c ≠ '.')) with
  | [] =>
      if w.isEmpty || !(allDigits w) then none
      else some (if neg then -(digitsVal w) else digitsVal w)
  | _ :: f =>
      if f.any (fun c => c = '.') then none
      else if (w.isEmpty && f.isEmpty) || !(allDigits w) || !(allDigits f) then none
      else
        let q := digitsVal w + digitsVal f / 10 ^ f.length
        some (if neg then -q else q)

def commaToDot (c : Char) : Char := if c = ',' then '.' else c

/-- One data cell: `str(x).replace(",", ".")` followed by `float(...)`
(line 69-70 of `data_manager.py`). -/
def cellToFloat (s : String) : Option ℚ :=
  parseDecimalChars (s.data.map commaToDot)

/-! ## Smoother

Model of `scipy.ndimage.uniform_filter1d(xs, size=w)` with its default
`reflect` boundary mode: output `i` is the mean of the window
`xs[i - w/2 .. i - w/2 + w - 1]`, indices reflected at the edges. -/

def uniformFilter1d (w : Nat) (xs : List ℚ) : List ℚ :=
  let n := xs.length
  (List.range n).map (fun i =>
    (((List.range w).map (fun k =>
      let j : Int := (i : Int) - ((w / 2 : Nat) : Int) + (k : Int)
      let jr : Int := if j < 0 then -1 - j else if (n : Int) ≤ j then 2 * n - 1 - j else j
      xs.getD jr.toNat 0)).sum) / (w : ℚ))

/-! ## Linear-region detector (`DataManager.trim_to_linear_region`, lines 78-142)

The slope at index `i ≥ 1` is `(temp[i] - temp[i-1]) / (time[i] - time[i-1])`;
index `0` gets `np.nan` (line 112), modelled as `none`, and a zero time step
(numpy `inf`/`nan`) is also modelled as `none`: in both cases the numpy
comparison `|slope - target| <= tolerance` is false, so the sample never
qualifies. -/

def slopesOf (time temp : List ℚ) : List (Option ℚ) :=
  none :: ((temp.zip temp.tail).zip (time.zip time.tail)).map (fun p =>
    let dT := p.1.2 - p.1.1
    let dt := p.2.2 - p.2.1
    if dt = 0 then none else some (dT / dt))

/-- `within_gradient` (line 115): sample `i` qualifies iff its slope is defined
and within `tolerance` of `target_slope`. -/
def withinGradient (time temp : List ℚ) (target tol : ℚ) : List Bool :=
  (slopesOf time temp).map (fun s => match s with
    | none => false
    | some v => decide (|v - target| ≤ tol))

/-- The scan of lines 122-133: walk the qualification flags left to right,
remembering the start of the current run; when a run is closed by a
non-qualifying sample, return it if it spans at least 20 time units, else
continue with no current run.  `i` is the absolute index of the head of the
remaining flag list, `cur` the start index of the open run (if any). -/
def scanLinear (time : List ℚ) : List Bool → Nat → Option Nat → Option (Nat × Nat)
  | [], _, _ => none
  | b :: rest, i, cur =>
    if b then scanLinear time rest (i + 1) (some (cur.getD i))
    else
      match cur with
      | none => scanLinear time rest (i + 1) none
      | some cs =>
        if (20 : ℚ) ≤ time.getD (i - 1) 0 - time.getD cs 0 then some (cs, i - 1)
        else scanLinear time rest (i + 1) none

/-- All maximal contiguous runs of `true` flags, as `(start_index, end_index)`
pairs in order of occurrence (a trailing run that reaches the end of the list
included). -/
def runsAux : List Bool → Nat → Option Nat → List (Nat × Nat)
  | [], i, cur =>
    (match cur with
     | none => []
     | some cs => [(cs, i - 1)])
  | b :: rest, i, cur =>
    if b then runsAux rest (i + 1) (some (cur.getD i))
    else
      match cur with
      | none => runsAux rest (i + 1) none
      | some cs => (cs, i - 1) :: runsAux rest (i + 1) none

def maximalRuns (wg : List Bool) : List (Nat × Nat) := runsAux wg 0 none

/-- A run examined by the scan: it must be closed by a non-qualifying sample
strictly before the end of the series (`r.2 + 1 < n`), and span at least
20 time units. -/
def goodRun (time : List ℚ) (n : Nat) (r : Nat × Nat) : Bool :=
  decide (r.2 + 1 < n) && decide ((20 : ℚ) ≤ time.getD r.2 0 - time.getD r.1 0)

/-- A qualifying run spanning at least 20 time units, with no requirement that
it be closed before the end of the series. -/
def spanRun (time : List ℚ) (r : Nat × Nat) : Bool :=
  decide ((20 : ℚ) ≤ time.getD r.2 0 - time.getD r.1 0)

def smoothedTemperature (sm : Bool) (w : Nat) (temp : List ℚ) : List ℚ :=
  if sm then uniformFilter1d w temp else temp

def runToRegion (time : List ℚ) (r : Nat × Nat) : ℚ × ℚ :=
  (time.getD r.1 0, time.getD r.2 0)

/-- The trim region computed and stored by `trim_to_linear_region`
(lines 100-142) for one experiment: `none` when the scan finds no region,
otherwise the time values at the run's start and end indices. -/
def trim_to_linear_region_region (time temp : List ℚ) (target tol : ℚ)
    (sm : Bool) (w : Nat) : Option (ℚ × ℚ) :=
  let wg := withinGradient time (smoothedTemperature sm w temp) target tol
  (scanLinear time wg 0 none).map (runToRegion time)

/-- Modelled from the spec: "the first maximal contiguous run of qualifying
samples whose time span is ≥ 20" — the claim's description of the detector,
with no requirement that the run be closed before the end of the series. -/
def firstQualifyingRegion (time temp : List ℚ) (target tol : ℚ)
    (sm : Bool) (w : Nat) : Option (ℚ × ℚ) :=
  let wg := withinGradient time (smoothedTemperature sm w temp) target tol
  ((maximalRuns wg).find? (spanRun time)).map (runToRegion time)

/-- The amended description: the first maximal contiguous run of qualifying
samples that is closed by a non-qualifying sample before the end of the series
and spans at least 20 time units. -/
def firstTerminatedQualifyingRegion (time temp : List ℚ) (target tol : ℚ)
    (sm : Bool) (w : Nat) : Option (ℚ × ℚ) :=
  let wg := withinGradient time (smoothedTemperature sm w temp) target tol
  ((maximalRuns wg).find? (goodRun time wg.length)).map (runToRegion time)

/-! ## Channel parser (`DataManager._extract_data_to_dataframes`, lines 41-76)

A raw file is modelled after tokenisation: `headerTokens` are the tab-separated
tokens of the (stripped) 7th line, `dataRows` the tab-split data lines
`lines[7:-1]` (the trailing terminator line already excluded).  Each header
entry `i` owns the 3-column block `3*i, 3*i+1, 3*i+2` (sample index, time,
value); the parser keeps columns `3*i+1` and `3*i+2`, drops the first data row
(it is consumed as column names, line 66-67), normalises `,` to `.` and
converts to float.  A failed conversion (pandas `astype(float)` raising) is
modelled as an overall `none`. -/

structure RawFile where
  name : String
  headerTokens : List String
  dataRows : List (List String)
deriving DecidableEq

/-- Line 55: keep non-empty tokens, stripped. -/
def parseHeaders (toks : List String) : List String :=
  (toks.filter (fun t => t ≠ "")).map strTrim

/-- The `(time, value)` pair of one data row for channel block `i`
(columns `3*i+1` and `3*i+2`). -/
def rowEntry (i : Nat) (r : List String) : Option (ℚ × ℚ) :=
  match cellToFloat (r.getD (3 * i + 1) ""), cellToFloat (r.getD (3 * i + 2) "") with
  | some t, some v => some (t, v)
  | _, _ => none

/-- Traverse a list with a fallible function; any failure fails the whole
computation (pandas raising on one bad cell aborts the file's parse). -/
def optionTraverse : List α → (α → Option β) → Option (List β)
  | [], _ => some []
  | a :: l, f =>
    match f a, optionTraverse l f with
    | some b, some bs => some (b :: bs)
    | _, _ => none

/-- All `(time, value)` entries of channel block `i`: the first data row is
dropped (line 66-67), the rest converted. -/
def channelEntries (rows : List (List String)) (i : Nat) : Option (List (ℚ × ℚ)) :=
  optionTraverse (rows.drop 1) (rowEntry i)

/-- The parsed channels of one file, in header order, as a list of
`(channel_name, entries)` pairs, named `{experiment_name}_{header}` (line 73). -/
def parseChannelsList (f : RawFile) : Option (List (String × List (ℚ × ℚ))) :=
  optionTraverse (parseHeaders f.headerTokens).enum (fun p =>
    (channelEntries f.dataRows p.1).map (fun es => (f.name ++ "_" ++ p.2, es)))

/-- The per-file dictionary `file_dataframes` (line 62-73): the channel list
inserted into a Python dict, so duplicate channel names collapse
(a later header with the same name overwrites the earlier channel). -/
def parseChannels (f : RawFile) : Option (List (String × List (ℚ × ℚ))) :=
  (parseChannelsList f).map (fun l => l.foldl (fun m p => dinsert m p.1 p.2) [])

/-! ## Experiment store and `DataManager.apply_trim_boundaries` (lines 151-185)

`DMState` holds the three dictionaries of `DataManager`; a channel table is a
list of `(time, value)` rows with the implicit `RangeIndex` row numbering. -/

abbrev DF := List (ℚ × ℚ)
abbrev FileDFs := List (String × DF)

structure DMState where
  dataframes : List (String × FileDFs)
  trimmed_dataframes : List (String × FileDFs)
  trim_regions : List (String × Option (ℚ × ℚ))
deriving DecidableEq

/-- Lines 170-173: the reference table is the first one whose name contains
`"Temp"`, else the first table; `none` only if the file has no tables at all
(where the Python `list(...)[0]` would raise `IndexError`). -/
def referenceDF (dfs : FileDFs) : Option DF :=
  match dfs.find? (fun p => strContains p.1 "Temp") with
  | some p => some p.2
  | none => dfs.head?.map (·.2)

/-- Lines 176-177: the row indices of the reference table whose time lies in
`[ts, te]`. -/
def validIndices (ref : DF) (ts te : ℚ) : List Nat :=
  (ref.enum.filter (fun p => decide (ts ≤ p.2.1) && decide (p.2.1 ≤ te))).map (·.1)

/-- Line 184: restrict a table to the rows whose index is in `valid`
(`df.index.intersection(valid_indices)` followed by `reset_index`). -/
def filterRows (df : DF) (valid : List Nat) : DF :=
  (df.enum.filter (fun p => valid.contains p.1)).map (·.2)

/-- Lines 163-164: make sure the file has a (possibly empty) entry in
`trimmed_dataframes`. -/
def ensureTrimmed (m : List (String × FileDFs)) (f : String) : List (String × FileDFs) :=
  if dcontains m f then m else dinsert m f []

/-- Lines 183-185: re-trim every table of the file from the untrimmed
originals, overwriting the file's trimmed dictionary entry by entry. -/
def trimFileTables (dfs : FileDFs) (valid : List Nat) (old : FileDFs) : FileDFs :=
  dfs.foldl (fun acc p => dinsert acc p.1 (filterRows p.2 valid)) old

/-- The body of `apply_trim_boundaries` once the file was found in
`dataframes` (lines 162-185).  All branches store the new trim region
(line 167); when the reference table selects no rows the early `return`
(line 180) leaves `trimmed_dataframes` as it was, and the same intermediate
state models a file with no tables, where Python raises `IndexError` at
line 172 after the same two writes. -/
def applyTrimCore (st : DMState) (f : String) (ts te : ℚ) (dfs : FileDFs) : DMState :=
  match referenceDF dfs with
  | none =>
      ⟨st.dataframes, ensureTrimmed st.trimmed_dataframes f,
        dinsert st.trim_regions f (some (ts, te))⟩
  | some ref =>
      if validIndices ref ts te = [] then
        ⟨st.dataframes, ensureTrimmed st.trimmed_dataframes f,
          dinsert st.trim_regions f (some (ts, te))⟩
      else
        ⟨st.dataframes,
          dinsert (ensureTrimmed st.trimmed_dataframes f) f
            (trimFileTables dfs (validIndices ref ts te)
              ((dlookup (ensureTrimmed st.trimmed_dataframes f) f).getD [])),
          dinsert st.trim_regions f (some (ts, te))⟩

/-- `DataManager.apply_trim_boundaries` (lines 151-185) as a state
transformer: a no-op when the file is unknown (line 159-160). -/
def apply_trim_boundaries (st : DMState) (file_name : String) (ts te : ℚ) : DMState :=
  match dlookup st.dataframes file_name with
  | none => st
  | some dfs => applyTrimCore st file_name ts te dfs

/-! ## Dosage extraction (`DataManager.extract_dosage_from_filename`, lines 196-213)

`re.search(r"(\d{1,3}[.,]?\d*)[kK]_", file_name.split("_", 1)[-1])`, hand
compiled.  For this pattern greedy matching without backtracking is equivalent
to Python's leftmost-greedy semantics: at a given start the attempt consumes up
to three digits, an optional `.`/`,`, further digits, then requires `k`/`K`
followed by `_`; shrinking any greedy part can never turn a failing
continuation into a success because the next character after a shorter digit
run is a digit (never `k`/`K`), and after a skipped separator is the separator
itself. -/

/-- `file_name.split("_", 1)[-1]`: everything after the first underscore, or
the whole name when it has none. -/
def afterFirstUnderscore (cs : List Char) : List Char :=
  match cs.span (fun c => decide (c ≠ '_')) with
  | (_, []) => cs
  | (_, _ :: rest) => rest

/-- Try the dosage pattern anchored at the start of `cs`; on success return
the captured group `\d{1,3}[.,]?\d*`. -/
def matchDosageAt (cs : List Char) : Option (List Char) :=
  let d1 := (cs.takeWhile Char.isDigit).take 3
  if d1.isEmpty then none
  else
    let rest1 := cs.drop d1.length
    let sep : List Char :=
      match rest1 with
      | c :: _ => if c = '.' || c = ',' then [c] else []
      | [] => []
    let rest2 := rest1.drop sep.length
    let d2 := rest2.takeWhile Char.isDigit
    let rest3 := rest2.drop d2.length
    match rest3 with
    | k :: u :: _ =>
      if (k = 'k' || k = 'K') && u = '_' then some (d1 ++ sep ++ d2) else none
    | _ => none

/-- `re.search`: try every start position left to right. -/
def searchDosage : List Char → Option (List Char)
  | [] => none
  | c :: rest =>
    match matchDosageAt (c :: rest) with
    | some g => some g
    | none => searchDosage rest

def extract_dosage_from_filename (name : String) : Option ℚ :=
  match searchDosage (afterFirstUnderscore name.data) with
  | some g => parseDecimalChars (g.map commaToDot)
  | none => none

/-! ## Simpson integration (`scipy.integrate.simps` on possibly uneven `x`)

Composite Simpson over pairs of intervals with the unevenly-spaced
three-point formula; an even number of points uses scipy's default
`even='avg'` handling (mean of Simpson-plus-trailing-trapezoid and
leading-trapezoid-plus-Simpson).  Division by a zero interval, where scipy
would produce `inf`/`nan`, lands on `ℚ`'s junk value `0`; no claim touches
that corner. -/

def segSimpson (p0 p1 p2 : ℚ × ℚ) : ℚ :=
  let h1 := p1.1 - p0.1
  let h2 := p2.1 - p1.1
  (h1 + h2) / 6 *
    (p0.2 * (2 - h2 / h1) + p1.2 * ((h1 + h2) ^ 2 / (h1 * h2)) + p2.2 * (2 - h1 / h2))

def simpsonPairs : List (ℚ × ℚ) → ℚ
  | p0 :: p1 :: p2 :: rest => segSimpson p0 p1 p2 + simpsonPairs (p2 :: rest)
  | _ => 0

def trapz2 (p q : ℚ × ℚ) : ℚ := (q.1 - p.1) * (p.2 + q.2) / 2

/-- `simps(ys, xs)`. -/
def simpsQ (ys xs : List ℚ) : ℚ :=
  let pts := xs.zip ys
  if pts.length ≤ 1 then 0
  else if pts.length % 2 = 1 then simpsonPairs pts
  else
    (simpsonPairs pts.dropLast
      + trapz2 (pts.getD (pts.length - 2) (0, 0)) (pts.getD (pts.length - 1) (0, 0))
      + simpsonPairs pts.tail
      + trapz2 (pts.getD 0 (0, 0)) (pts.getD 1 (0, 0))) / 2

/-! ## Integration engine
(`DataManager.perform_full_integration`, lines 215-264, and
`DataManager.perform_ratio_integration`, lines 266-330)

Results are dictionaries keyed by dosage; the emitted
`QMessageBox.warning` calls are collected in a warning list; a `KeyError`
(missing trimmed entry in full integration, or no trimmed data for the file at
all) is modelled as an overall `none`.  The `np.nan` stored for a zero right
integral (line 325) is the inner `Option ℚ`'s `none`. -/

/-- Lines 237 / 286: first trimmed table whose name contains `"Temp"`. -/
def findTempName (tdfs : FileDFs) : Option String :=
  (tdfs.find? (fun p => strContains p.1 "Temp")).map (·.1)

/-- The smoothed temperature of a file (lines 241-245 / 291-295): column 2 of
the temperature table, box-filtered. -/
def smoothedTempOf (tdfs : FileDFs) (tn : String) (w : Nat) : List ℚ :=
  uniformFilter1d w (((dlookup tdfs tn).getD []).map (·.2))

/-- Lines 308-315: the `(smoothed_temperature, ion_current)` pairs whose
temperature lies in `[lo, hi]`. -/
def maskPairs (smT ion : List ℚ) (lo hi : ℚ) : List (ℚ × ℚ) :=
  (smT.zip ion).filter (fun p => decide (lo ≤ p.1) && decide (p.1 ≤ hi))

/-- Lines 307-328 for one ion channel: `none` when either window is empty
(line 317-318, the channel stores nothing); otherwise `some r` with `r` the
stored value — `none` for the `np.nan` sentinel when the right integral is
zero, else the left/right ratio. -/
def ratioForChannel (smT ion : List ℚ) (ls le rs re' : ℚ) : Option (Option ℚ) :=
  let left := maskPairs smT ion ls le
  let right := maskPairs smT ion rs re'
  if left.isEmpty || right.isEmpty then none
  else
    let li := simpsQ (left.map (·.2)) (left.map (·.1))
    let ri := simpsQ (right.map (·.2)) (right.map (·.1))
    some (if ri = 0 then none else some (li / ri))

/-- One selected channel name inside the ratio loop (lines 297-318): skipped
(`none`) when it is the temperature table, missing from the trimmed data, or
has an empty integration window. -/
def channelRatio (tdfs : FileDFs) (tn : String) (smT : List ℚ)
    (ls le rs re' : ℚ) (dn : String) : Option (Option ℚ) :=
  if dn = tn then none
  else
    match dlookup tdfs dn with
    | none => none
    | some df => ratioForChannel smT (df.map (·.2)) ls le rs re'

/-- "The last stored value wins": fold the per-channel results, keeping the
most recent one. -/
def lastHit (ch : String → Option (Option ℚ)) (names : List String) : Option (Option ℚ) :=
  names.foldl (fun acc dn =>
    match ch dn with
    | none => acc
    | some r => some r) none

/-- Lines 247-259: sum the Simpson integrals of the selected channels,
skipping the temperature table; a missing channel (`KeyError` at line 254) is
`none`. -/
def channelSum (tdfs : FileDFs) (tn : String) (smT : List ℚ) :
    List String → ℚ → Option ℚ
  | [], acc => some acc
  | dn :: rest, acc =>
    if dn = tn then channelSum tdfs tn smT rest acc
    else
      match dlookup tdfs dn with
      | none => none
      | some df => channelSum tdfs tn smT rest (acc + simpsQ (df.map (·.2)) smT)

/-- The main loop of `perform_full_integration` (lines 230-262). -/
def fullLoop (st : DMState) (w : Nat) :
    List (String × List String) → List (ℚ × ℚ) × List String →
    Option (List (ℚ × ℚ) × List String)
  | [], acc => some acc
  | (fname, dfNames) :: rest, (res, warns) =>
    match extract_dosage_from_filename fname with
    | none => fullLoop st w rest (res, warns ++ [fname])
    | some d =>
      match dlookup st.trimmed_dataframes fname with
      | none => none
      | some tdfs =>
        match findTempName tdfs with
        | none => fullLoop st w rest (res, warns)
        | some tn =>
          match channelSum tdfs tn (smoothedTempOf tdfs tn w) dfNames 0 with
          | none => none
          | some total => fullLoop st w rest (dinsert res d total, warns)

def perform_full_integration (st : DMState) (sel : List (String × List String))
    (w : Nat) : Option (List (ℚ × ℚ) × List String) :=
  fullLoop st w sel ([], [])

/-- The main loop of `perform_ratio_integration` (lines 279-328). -/
def ratioLoop (st : DMState) (w : Nat) (ls le rs re' : ℚ) :
    List (String × List String) → List (ℚ × Option ℚ) × List String →
    Option (List (ℚ × Option ℚ) × List String)
  | [], acc => some acc
  | (fname, dfNames) :: rest, (res, warns) =>
    match extract_dosage_from_filename fname with
    | none => ratioLoop st w ls le rs re' rest (res, warns ++ [fname])
    | some d =>
      match dlookup st.trimmed_dataframes fname with
      | none => none
      | some tdfs =>
        match findTempName tdfs with
        | none => ratioLoop st w ls le rs re' rest (res, warns)
        | some tn =>
          let ch := channelRatio tdfs tn (smoothedTempOf tdfs tn w) ls le rs re'
          let res' := dfNames.foldl (fun acc dn =>
            match ch dn with
            | none => acc
            | some r => dinsert acc d r) res
          ratioLoop st w ls le rs re' rest (res', warns)

def perform_ratio_integration (st : DMState) (sel : List (String × List String))
    (w : Nat) (ls le rs re' : ℚ) : Option (List (ℚ × Option ℚ) × List String) :=
  ratioLoop st w ls le rs re' sel ([], [])

/-! ## Concrete experiment stores and files used in witnesses and
counterexamples -/

/-- One experiment `"Xe"` with a single temperature table of two rows at times
0 and 10. -/
def storeXe : DMState :=
  ⟨[("Xe", [("Xe_Temp", [(0, 100), (10, 110)])])], [], []⟩

/-- A raw file with two identical header tokens `"A"`. -/
def fileDup : RawFile :=
  ⟨"E", ["A", "A"], [["0", "0", "0", "1", "0", "0"], ["0", "1", "2", "1", "4", "5"]]⟩

/-- A raw file with two distinct channels and three data rows. -/
def fileTwo : RawFile :=
  ⟨"E", ["Ion", "Temp"],
   [["0", "t", "v", "0", "t", "v"],
    ["0", "0,5", "2", "0", "1.5", "100"],
    ["1", "1", "3", "1", "2", "110"]]⟩

/-- A trimmed store with one experiment `"Xe_5k_1"` holding a temperature
table and two ion tables, one constant and one ramping. -/
def storeRatio : DMState :=
  ⟨[], [("Xe_5k_1",
         [("T_Temp", [(0, 100), (1, 200), (2, 300)]),
          ("i1", [(0, 1), (1, 1), (2, 1)]),
          ("i2", [(0, 0), (1, 2), (2, 4)])])], []⟩

/-- A trimmed store whose only experiment has no temperature table. -/
def storeSkip : DMState :=
  ⟨[], [("Xe_5k_1", [("ion_A", [(0, 1), (1, 2)])])], []⟩

/-- A trimmed store whose ion channel is zero on the right integration
window `[200, 300]`. -/
def storeZeroRight : DMState :=
  ⟨[], [("Xe_5k_1",
         [("T_Temp", [(0, 100), (1, 200), (2, 300)]),
          ("ion", [(0, 7), (1, 0), (2, 0)])])], []⟩

/-! ## Dictionary lemmas -/

theorem dlookup_dinsert_self {κ α : Type} [DecidableEq κ]
    (m : List (κ × α)) (k : κ) (v : α) : dlookup (dinsert m k v) k = some v := by
  induction m with
  | nil => simp [dinsert, dlookup]
  | cons p rest ih =>
    by_cases h : p.1 = k
    · simp [dinsert, dlookup, h]
    · simp [dinsert, dlookup, h, ih]

theorem dlookup_dinsert_ne {κ α : Type} [DecidableEq κ]
    (m : List (κ × α)) (k' k : κ) (v : α) (h : k' ≠ k) :
    dlookup (dinsert m k' v) k = dlookup m k := by
  induction m with
  | nil => simp [dinsert, dlookup, h]
  | cons p rest ih =>
    by_cases hp : p.1 = k'
    · simp [dinsert, dlookup, hp, h]
    · simp only [dinsert, hp, if_false, dlookup, ih]

theorem dcontains_dinsert_self {κ α : Type} [DecidableEq κ]
    (m : List (κ × α)) (k : κ) (v : α) : dcontains (dinsert m k v) k = true := by
  simp [dcontains, dlookup_dinsert_self]

theorem dinsert_dinsert {κ α : Type} [DecidableEq κ]
    (m : List (κ × α)) (k : κ) (v : α) :
    dinsert (dinsert m k v) k v = dinsert m k v := by
  induction m with
  | nil => simp [dinsert]
  | cons p rest ih =>
    by_cases h : p.1 = k
    · simp [dinsert, h]
    · simp [dinsert, h, ih]

theorem dinsert_of_dlookup {κ α : Type} [DecidableEq κ]
    (m : List (κ × α)) (k : κ) (v : α) (h : dlookup m k = some v) :
    dinsert m k v = m := by
  induction m with
  | nil => simp [dlookup] at h
  | cons p rest ih =>
    obtain ⟨a, b⟩ := p
    by_cases hp : a = k
    · subst hp
      simp only [dlookup, if_true, Option.some.injEq] at h
      simp [dinsert, h]
    · simp only [dlookup, hp, if_false] at h
      simp [dinsert, hp, ih h]

theorem dlookup_foldl_not_mem {κ α β : Type} [DecidableEq κ] (g : β → α)
    (l : List (κ × β)) (start : List (κ × α)) (k : κ)
    (h : ∀ p ∈ l, p.1 ≠ k) :
    dlookup (l.foldl (fun acc p => dinsert acc p.1 (g p.2)) start) k
      = dlookup start k := by
  induction l generalizing start with
  | nil => rfl
  | cons p rest ih =>
    simp only [List.foldl_cons]
    rw [ih _ (fun q hq => h q (List.mem_cons_of_mem p hq)),
      dlookup_dinsert_ne _ _ _ _ (h p (List.mem_cons_self p rest))]

theorem dlookup_foldl_dinsert {κ α β : Type} [DecidableEq κ] (g : β → α)
    (l : List (κ × β)) (start : List (κ × α)) (k : κ) (v : β)
    (hnd : (l.map (·.1)).Nodup) (hm : (k, v) ∈ l) :
    dlookup (l.foldl (fun acc p => dinsert acc p.1 (g p.2)) start) k
      = some (g v) := by
  induction l generalizing start with
  | nil => simp at hm
  | cons p rest ih =>
    simp only [List.map_cons, List.nodup_cons] at hnd
    rcases List.mem_cons.mp hm with heq | hmem
    · subst heq
      simp only [List.foldl_cons]
      rw [dlookup_foldl_not_mem]
      · exact dlookup_dinsert_self _ _ _
      · intro q hq hqk
        exact hnd.1 (hqk ▸ List.mem_map_of_mem (·.1) hq)
    · exact ih _ hnd.2 hmem

theorem foldl_dinsert_eq_self {κ α β : Type} [DecidableEq κ] (g : β → α)
    (l : List (κ × β)) (start : List (κ × α))
    (h : ∀ p ∈ l, dlookup start p.1 = some (g p.2)) :
    l.foldl (fun acc p => dinsert acc p.1 (g p.2)) start = start := by
  induction l with
  | nil => rfl
  | cons p rest ih =>
    simp only [List.foldl_cons]
    rw [dinsert_of_dlookup _ _ _ (h p (List.mem_cons_self p rest))]
    exact ih (fun q hq => h q (List.mem_cons_of_mem p hq))

theorem dinsert_append_of_not_mem {κ α : Type} [DecidableEq κ]
    (m : List (κ × α)) (k : κ) (v : α) (h : dlookup m k = none) :
    dinsert m k v = m ++ [(k, v)] := by
  induction m with
  | nil => simp [dinsert]
  | cons p rest ih =>
    by_cases hp : p.1 = k
    · simp [dlookup, hp] at h
    · simp only [dlookup, hp, if_false] at h
      simp [dinsert, hp, ih h]

theorem dlookup_append {κ α : Type} [DecidableEq κ]
    (a b : List (κ × α)) (k : κ) :
    dlookup (a ++ b) k
      = match dlookup a k with
        | some v => some v
        | none => dlookup b k := by
  induction a with
  | nil => simp [dlookup]
  | cons p rest ih =>
    by_cases hp : p.1 = k
    · simp [dlookup, hp]
    · simp [dlookup, hp, ih]

theorem foldl_dinsert_of_disjoint {κ α : Type} [DecidableEq κ]
    (l : List (κ × α)) (start : List (κ × α))
    (hnd : (l.map (·.1)).Nodup)
    (hdis : ∀ p ∈ l, dlookup start p.1 = none) :
    l.foldl (fun acc p => dinsert acc p.1 p.2) start = start ++ l := by
  induction l generalizing start with
  | nil => simp
  | cons p rest ih =>
    simp only [List.map_cons, List.nodup_cons] at hnd
    have hdis' : ∀ q ∈ rest, dlookup (start ++ [(p.1, p.2)]) q.1 = none := by
      intro q hq
      rw [dlookup_append, hdis q (List.mem_cons_of_mem p hq)]
      have hne : p.1 ≠ q.1 := fun he => hnd.1 (he ▸ List.mem_map_of_mem (·.1) hq)
      simp [dlookup, hne]
    simp only [List.foldl_cons]
    rw [dinsert_append_of_not_mem _ _ _ (hdis p (List.mem_cons_self p rest)),
      ih _ hnd.2 hdis']
    simp

/-! ## Linear-region scan lemmas -/

/-- The scan of lines 122-133 examines exactly the maximal runs that are
closed before the end of the flag list, in order, and returns the first one
spanning at least 20 time units. -/
theorem scanLinear_eq_find (time : List ℚ) :
    ∀ (wg : List Bool) (i : Nat) (cur : Option Nat),
      (∀ cs, cur = some cs → cs < i) →
      scanLinear time wg i cur
        = (runsAux wg i cur).find? (goodRun time (i + wg.length)) := by
  intro wg
  induction wg with
  | nil =>
    intro i cur hcur
    match cur with
    | none => rfl
    | some cs =>
      have h1 : cs < i := hcur cs rfl
      have h2 : ¬(i - 1 + 1 < i) := by omega
      simp [scanLinear, runsAux, List.find?, goodRun, h2]
  | cons b rest ih =>
    intro i cur hcur
    have harith : i + (b :: rest).length = (i + 1) + rest.length := by
      simp only [List.length_cons]
      omega
    cases b with
    | true =>
      have hcur' : ∀ cs, (some (cur.getD i) : Option Nat) = some cs → cs < i + 1 := by
        intro cs he
        injection he with he
        subst he
        cases cur with
        | none => simp
        | some c =>
          have := hcur c rfl
          simp only [Option.getD_some]
          omega
      simp only [scanLinear, if_true, runsAux]
      rw [ih (i + 1) _ hcur', harith]
    | false =>
      cases cur with
      | none =>
        simp only [scanLinear, Bool.false_eq_true, if_false, runsAux]
        rw [ih (i + 1) none (by intro cs h; cases h), harith]
      | some cs =>
        have h1 : cs < i := hcur cs rfl
        have hterm : i - 1 + 1 < i + 1 + rest.length := by omega
        simp only [scanLinear, Bool.false_eq_true, if_false, runsAux, harith]
        by_cases hspan : (20 : ℚ) ≤ time.getD (i - 1) 0 - time.getD cs 0
        · have hd : goodRun time (i + 1 + rest.length) (cs, i - 1) = true := by
            simp only [goodRun, Bool.and_eq_true, decide_eq_true_eq]
            exact ⟨hterm, hspan⟩
          simp only [List.find?, hd, if_pos hspan]
        · have hd : goodRun time (i + 1 + rest.length) (cs, i - 1) = false := by
            simp only [goodRun, Bool.and_eq_false_iff, decide_eq_false_iff_not]
            exact Or.inr hspan
          simp only [List.find?, hd, if_neg hspan]
          exact ih (i + 1) none (by intro c h; cases h)


/-- Any region returned by the scan passed the 20-unit duration check. -/
theorem scanLinear_span (time : List ℚ) :
    ∀ (wg : List Bool) (i : Nat) (cur : Option Nat) (s e : Nat),
      scanLinear time wg i cur = some (s, e) →
      (20 : ℚ) ≤ time.getD e 0 - time.getD s 0 := by
  intro wg
  induction wg with
  | nil =>
    intro i cur s e h
    simp [scanLinear] at h
  | cons b rest ih =>
    intro i cur s e h
    cases b with
    | true =>
      simp only [scanLinear, if_true] at h
      exact ih _ _ _ _ h
    | false =>
      cases cur with
      | none =>
        simp only [scanLinear, Bool.false_eq_true, if_false] at h
        exact ih _ _ _ _ h
      | some cs =>
        simp only [scanLinear, Bool.false_eq_true, if_false] at h
        by_cases hspan : (20 : ℚ) ≤ time.getD (i - 1) 0 - time.getD cs 0
        · rw [if_pos hspan] at h
          injection h with h
          injection h with ha hb
          subst ha
          subst hb
          exact hspan
        · rw [if_neg hspan] at h
          exact ih _ _ _ _ h

/-- C1, amended part: the detector equals the declarative "first closed
qualifying run of span at least 20" description, for every input. -/
theorem detector_eq_first_terminated_run (time temp : List ℚ) (target tol : ℚ)
    (sm : Bool) (w : Nat) :
    trim_to_linear_region_region time temp target tol sm w
      = firstTerminatedQualifyingRegion time temp target tol sm w := by
  simp only [trim_to_linear_region_region, firstTerminatedQualifyingRegion, maximalRuns]
  rw [scanLinear_eq_find time _ 0 none (by intro cs h; cases h), Nat.zero_add]

/-- C1 (counterexample): on `time = temp = [0, 30, 60]` with target slope 1 and
tolerance 0, the qualifying samples are indices 1-2, a single maximal run
spanning 30 >= 20 time units; the claimed behaviour returns it, but the scan of
lines 122-133 only examines runs closed by a non-qualifying sample, so a run
reaching the end of the series is never found and the detector returns `none`. -/
theorem detector_misses_tail_run :
    trim_to_linear_region_region [0, 30, 60] [0, 30, 60] 1 0 false 1 = none ∧
    firstQualifyingRegion [0, 30, 60] [0, 30, 60] 1 0 false 1 = some (30, 60) := by
  constructor
  · with_unfolding_all decide
  · with_unfolding_all decide

/-- C2: every region stored by a successful linear-region detection spans at
least 20 time units, and in particular ends no earlier than it starts. -/
theorem trim_region_duration_invariant (time temp : List ℚ) (target tol : ℚ)
    (sm : Bool) (w : Nat) (ts te : ℚ)
    (h : trim_to_linear_region_region time temp target tol sm w = some (ts, te)) :
    (20 : ℚ) ≤ te - ts ∧ ts ≤ te := by
  simp only [trim_to_linear_region_region] at h
  rw [Option.map_eq_some'] at h
  obtain ⟨r, hr, hrt⟩ := h
  have hspan := scanLinear_span time _ 0 none r.1 r.2 hr
  simp only [runToRegion] at hrt
  injection hrt with ha hb
  subst ha
  subst hb
  refine ⟨hspan, ?_⟩
  linarith

/-- Witness for C2 at a concrete four-sample ramp. -/
theorem trim_region_duration_invariant_witness :
    (20 : ℚ) ≤ 30 - 10 ∧ (10 : ℚ) ≤ 30 :=
  trim_region_duration_invariant [0, 10, 30, 31] [0, 10, 30, 100] 1 0 false 1 10 30
    (by with_unfolding_all decide)

/-! ## Trim-application lemmas -/

theorem dcontains_ensureTrimmed (m : List (String × FileDFs)) (f : String) :
    dcontains (ensureTrimmed m f) f = true := by
  unfold ensureTrimmed
  by_cases h : dcontains m f
  · simp [h]
  · simp [h, dcontains_dinsert_self]

theorem ensureTrimmed_of_contains (m : List (String × FileDFs)) (f : String)
    (h : dcontains m f = true) : ensureTrimmed m f = m := by
  simp [ensureTrimmed, h]

theorem dlookup_ensureTrimmed (m : List (String × FileDFs)) (f : String) :
    dlookup (ensureTrimmed m f) f = some ((dlookup m f).getD []) := by
  unfold ensureTrimmed
  cases h : dlookup m f with
  | none => simp [dcontains, h, dlookup_dinsert_self]
  | some v => simp [dcontains, h]

theorem applyTrimCore_none (st : DMState) (f : String) (ts te : ℚ) (dfs : FileDFs)
    (href : referenceDF dfs = none) :
    applyTrimCore st f ts te dfs
      = ⟨st.dataframes, ensureTrimmed st.trimmed_dataframes f,
          dinsert st.trim_regions f (some (ts, te))⟩ := by
  simp only [applyTrimCore, href]

theorem applyTrimCore_empty (st : DMState) (f : String) (ts te : ℚ) (dfs : FileDFs)
    (ref : DF) (href : referenceDF dfs = some ref)
    (hval : validIndices ref ts te = []) :
    applyTrimCore st f ts te dfs
      = ⟨st.dataframes, ensureTrimmed st.trimmed_dataframes f,
          dinsert st.trim_regions f (some (ts, te))⟩ := by
  simp only [applyTrimCore, href]
  rw [if_pos hval]

theorem applyTrimCore_nonempty (st : DMState) (f : String) (ts te : ℚ) (dfs : FileDFs)
    (ref : DF) (href : referenceDF dfs = some ref)
    (hval : ¬validIndices ref ts te = []) :
    applyTrimCore st f ts te dfs
      = ⟨st.dataframes,
          dinsert (ensureTrimmed st.trimmed_dataframes f) f
            (trimFileTables dfs (validIndices ref ts te)
              ((dlookup (ensureTrimmed st.trimmed_dataframes f) f).getD [])),
          dinsert st.trim_regions f (some (ts, te))⟩ := by
  simp only [applyTrimCore, href]
  rw [if_neg hval]

theorem applyTrimCore_dataframes (st : DMState) (f : String) (ts te : ℚ)
    (dfs : FileDFs) : (applyTrimCore st f ts te dfs).dataframes = st.dataframes := by
  unfold applyTrimCore
  cases referenceDF dfs with
  | none => rfl
  | some ref =>
    by_cases h : validIndices ref ts te = [] <;> simp [h]

theorem trimFileTables_self (dfs : FileDFs) (valid : List Nat) (old : FileDFs)
    (hnd : (dfs.map (·.1)).Nodup) :
    trimFileTables dfs valid (trimFileTables dfs valid old)
      = trimFileTables dfs valid old := by
  unfold trimFileTables
  exact foldl_dinsert_eq_self (fun df => filterRows df valid) dfs _
    (fun p hp => dlookup_foldl_dinsert (fun df => filterRows df valid) dfs old p.1 p.2 hnd hp)

theorem applyTrimCore_idem (st : DMState) (f : String) (ts te : ℚ) (dfs : FileDFs)
    (hnd : (dfs.map (·.1)).Nodup) :
    applyTrimCore (applyTrimCore st f ts te dfs) f ts te dfs
      = applyTrimCore st f ts te dfs := by
  cases href : referenceDF dfs with
  | none =>
    rw [applyTrimCore_none st f ts te dfs href, applyTrimCore_none _ f ts te dfs href]
    simp [ensureTrimmed_of_contains, dcontains_ensureTrimmed, dinsert_dinsert]
  | some ref =>
    by_cases hval : validIndices ref ts te = []
    · rw [applyTrimCore_empty st f ts te dfs ref href hval,
        applyTrimCore_empty _ f ts te dfs ref href hval]
      simp [ensureTrimmed_of_contains, dcontains_ensureTrimmed, dinsert_dinsert]
    · rw [applyTrimCore_nonempty st f ts te dfs ref href hval,
        applyTrimCore_nonempty _ f ts te dfs ref href hval]
      have hcon : dcontains (dinsert (ensureTrimmed st.trimmed_dataframes f) f
          (trimFileTables dfs (validIndices ref ts te)
            ((dlookup (ensureTrimmed st.trimmed_dataframes f) f).getD []))) f = true :=
        dcontains_dinsert_self _ _ _
      simp only [ensureTrimmed_of_contains _ _ hcon, dlookup_dinsert_self,
        Option.getD_some, trimFileTables_self dfs (validIndices ref ts te) _ hnd,
        dinsert_dinsert]

theorem apply_trim_not_found (st : DMState) (f : String) (ts te : ℚ)
    (h : dlookup st.dataframes f = none) :
    apply_trim_boundaries st f ts te = st := by
  unfold apply_trim_boundaries
  rw [h]

theorem apply_trim_found (st : DMState) (f : String) (ts te : ℚ) (dfs : FileDFs)
    (h : dlookup st.dataframes f = some dfs) :
    apply_trim_boundaries st f ts te = applyTrimCore st f ts te dfs := by
  unfold apply_trim_boundaries
  rw [h]

/-- C4 (counterexample): trim `"Xe"` to the in-range window `[0, 10]` and then
to the out-of-range window `[100, 200]`.  No reference row lies in
`[100, 200]`, yet the stored trimmed tables are the old, non-empty ones from
the first call (the early `return` at line 180 never clears them), while the
stored region is already the new one — the claimed empty `TrimmedExperiment`
is not produced. -/
theorem apply_trim_out_of_range_keeps_old_data :
    dlookup (apply_trim_boundaries (apply_trim_boundaries storeXe "Xe" 0 10)
        "Xe" 100 200).trimmed_dataframes "Xe"
      = some [("Xe_Temp", [(0, 100), (10, 110)])] ∧
    dlookup (apply_trim_boundaries (apply_trim_boundaries storeXe "Xe" 0 10)
        "Xe" 100 200).trim_regions "Xe"
      = some (some (100, 200)) := by
  constructor
  · with_unfolding_all decide
  · with_unfolding_all decide

/-- C4 (amended): when the trim window selects no reference rows, the call
returns without error, stores the new region, and leaves the file's previously
stored trimmed tables unchanged — so the trimmed data is empty exactly when the
file had no trimmed entry before the call. -/
theorem apply_trim_out_of_range_state (st : DMState) (f : String) (ts te : ℚ)
    (dfs : FileDFs) (ref : DF)
    (hdf : dlookup st.dataframes f = some dfs)
    (href : referenceDF dfs = some ref)
    (hval : validIndices ref ts te = []) :
    dlookup (apply_trim_boundaries st f ts te).trimmed_dataframes f
        = some ((dlookup st.trimmed_dataframes f).getD []) ∧
    dlookup (apply_trim_boundaries st f ts te).trim_regions f
        = some (some (ts, te)) := by
  rw [apply_trim_found st f ts te dfs hdf,
    applyTrimCore_empty st f ts te dfs ref href hval]
  exact ⟨dlookup_ensureTrimmed _ _, dlookup_dinsert_self _ _ _⟩

/-- Witness for the amended C4 on the concrete two-call scenario. -/
theorem apply_trim_out_of_range_state_witness :
    dlookup (apply_trim_boundaries (apply_trim_boundaries storeXe "Xe" 0 10)
        "Xe" 100 200).trimmed_dataframes "Xe"
      = some ((dlookup (apply_trim_boundaries storeXe "Xe" 0 10).trimmed_dataframes
          "Xe").getD []) ∧
    dlookup (apply_trim_boundaries (apply_trim_boundaries storeXe "Xe" 0 10)
        "Xe" 100 200).trim_regions "Xe"
      = some (some (100, 200)) :=
  apply_trim_out_of_range_state (apply_trim_boundaries storeXe "Xe" 0 10) "Xe" 100 200
    [("Xe_Temp", [(0, 100), (10, 110)])] [(0, 100), (10, 110)]
    (by with_unfolding_all decide) (by with_unfolding_all decide)
    (by with_unfolding_all decide)

/-- C5 (counterexample): after trimming `"Xe"` to `[0, 10]` and then to
`[100, 200]`, the store pairs the new `TrimRegion` `(100, 200)` with the old
`TrimmedExperiment` (the non-empty tables of the `[0, 10]` trim), although
re-trimming by `(100, 200)` yields no rows — the old and new versions of the
pair are simultaneously visible, so the replacement is not atomic. -/
theorem trim_pair_not_atomic :
    dlookup (apply_trim_boundaries (apply_trim_boundaries storeXe "Xe" 0 10)
        "Xe" 100 200).trim_regions "Xe" = some (some (100, 200)) ∧
    dlookup (apply_trim_boundaries (apply_trim_boundaries storeXe "Xe" 0 10)
        "Xe" 100 200).trimmed_dataframes "Xe"
      = some [("Xe_Temp", [(0, 100), (10, 110)])] ∧
    filterRows [(0, 100), (10, 110)] (validIndices [(0, 100), (10, 110)] 100 200)
      = [] := by
  refine ⟨?_, ?_, ?_⟩
  · with_unfolding_all decide
  · with_unfolding_all decide
  · with_unfolding_all decide

/-- C5 (amended): whenever the trim window selects at least one reference row,
the call replaces the `TrimRegion`/`TrimmedExperiment` pair consistently: after
it returns, the stored region is the applied one and every channel of the
experiment is re-trimmed from the untrimmed originals by that region. -/
theorem apply_trim_replaces_pair_consistently (st : DMState) (f : String)
    (ts te : ℚ) (dfs : FileDFs) (ref : DF)
    (hdf : dlookup st.dataframes f = some dfs)
    (hnd : (dfs.map (·.1)).Nodup)
    (href : referenceDF dfs = some ref)
    (hval : ¬validIndices ref ts te = []) :
    dlookup (apply_trim_boundaries st f ts te).trim_regions f
        = some (some (ts, te)) ∧
    ∀ k df, (k, df) ∈ dfs →
      dlookup ((dlookup (apply_trim_boundaries st f ts te).trimmed_dataframes f).getD []) k
        = some (filterRows df (validIndices ref ts te)) := by
  rw [apply_trim_found st f ts te dfs hdf,
    applyTrimCore_nonempty st f ts te dfs ref href hval]
  refine ⟨dlookup_dinsert_self _ _ _, ?_⟩
  intro k df hk
  simp only [dlookup_dinsert_self, Option.getD_some]
  exact dlookup_foldl_dinsert (fun df => filterRows df (validIndices ref ts te))
    dfs _ k df hnd hk

/-- Witness for the amended C5: an in-range trim of `storeXe`. -/
theorem apply_trim_replaces_pair_consistently_witness :
    dlookup (apply_trim_boundaries storeXe "Xe" 0 10).trim_regions "Xe"
        = some (some (0, 10)) ∧
    dlookup ((dlookup (apply_trim_boundaries storeXe "Xe" 0 10).trimmed_dataframes
        "Xe").getD []) "Xe_Temp"
      = some (filterRows [(0, 100), (10, 110)]
          (validIndices [(0, 100), (10, 110)] 0 10)) := by
  have h := apply_trim_replaces_pair_consistently storeXe "Xe" 0 10
    [("Xe_Temp", [(0, 100), (10, 110)])] [(0, 100), (10, 110)]
    (by with_unfolding_all decide) (by with_unfolding_all decide)
    (by with_unfolding_all decide) (by with_unfolding_all decide)
  exact ⟨h.1, h.2 "Xe_Temp" [(0, 100), (10, 110)] (by with_unfolding_all decide)⟩

/-- C6: re-applying the same trim window to the same experiment is a no-op on
the whole store (in particular the `TrimmedExperiment` is identical), provided
the experiment's channel names are distinct, as Python dict keys always are. -/
theorem apply_trim_idempotent (st : DMState) (f : String) (ts te : ℚ)
    (hnd : (((dlookup st.dataframes f).getD []).map (·.1)).Nodup) :
    apply_trim_boundaries (apply_trim_boundaries st f ts te) f ts te
      = apply_trim_boundaries st f ts te := by
  cases hdf : dlookup st.dataframes f with
  | none =>
    rw [apply_trim_not_found st f ts te hdf, apply_trim_not_found st f ts te hdf]
  | some dfs =>
    rw [hdf] at hnd
    simp only [Option.getD_some] at hnd
    rw [apply_trim_found st f ts te dfs hdf]
    have hdf2 : dlookup (applyTrimCore st f ts te dfs).dataframes f = some dfs := by
      rw [applyTrimCore_dataframes]
      exact hdf
    rw [apply_trim_found _ f ts te dfs hdf2]
    exact applyTrimCore_idem st f ts te dfs hnd

/-- Witness for C6 on the concrete store. -/
theorem apply_trim_idempotent_witness :
    apply_trim_boundaries (apply_trim_boundaries storeXe "Xe" 0 10) "Xe" 0 10
      = apply_trim_boundaries storeXe "Xe" 0 10 :=
  apply_trim_idempotent storeXe "Xe" 0 10 (by with_unfolding_all decide)

/-! ## Dosage-extraction lemmas -/

theorem isDigit_ne (c x : Char) (h : c.isDigit = true) (hx : x.isDigit = false) :
    c ≠ x := by
  intro he
  subst he
  rw [h] at hx
  cases hx

theorem takeWhile_append_of_forall (p : Char → Bool) (l : List Char) (x : Char)
    (r : List Char) (hl : ∀ c ∈ l, p c = true) (hx : p x = false) :
    (l ++ x :: r).takeWhile p = l := by
  induction l with
  | nil => simp [List.takeWhile_cons, hx]
  | cons c cl ih =>
    have hc := hl c (List.mem_cons_self c cl)
    simp [List.takeWhile_cons, hc,
      ih (fun d hd => hl d (List.mem_cons_of_mem c hd))]

theorem dropWhile_append_of_forall (p : Char → Bool) (l : List Char) (x : Char)
    (r : List Char) (hl : ∀ c ∈ l, p c = true) (hx : p x = false) :
    (l ++ x :: r).dropWhile p = x :: r := by
  induction l with
  | nil => simp [List.dropWhile_cons, hx]
  | cons c cl ih =>
    have hc := hl c (List.mem_cons_self c cl)
    simp [List.dropWhile_cons, hc,
      ih (fun d hd => hl d (List.mem_cons_of_mem c hd))]

theorem takeWhile_all_of_forall (p : Char → Bool) (l : List Char)
    (hl : ∀ c ∈ l, p c = true) : l.takeWhile p = l := by
  induction l with
  | nil => rfl
  | cons c cl ih =>
    simp [List.takeWhile_cons, hl c (List.mem_cons_self c cl),
      ih (fun d hd => hl d (List.mem_cons_of_mem c hd))]

theorem dropWhile_all_of_forall (p : Char → Bool) (l : List Char)
    (hl : ∀ c ∈ l, p c = true) : l.dropWhile p = [] := by
  induction l with
  | nil => rfl
  | cons c cl ih =>
    simp [List.dropWhile_cons, hl c (List.mem_cons_self c cl),
      ih (fun d hd => hl d (List.mem_cons_of_mem c hd))]

theorem map_commaToDot_of_digits (l : List Char)
    (h : ∀ c ∈ l, c.isDigit = true) : l.map commaToDot = l := by
  induction l with
  | nil => rfl
  | cons c cl ih =>
    have hc : c ≠ ',' := isDigit_ne c ',' (h c (List.mem_cons_self c cl)) (by decide)
    simp [commaToDot, hc, ih (fun d hd => h d (List.mem_cons_of_mem c hd))]

theorem allDigits_of_forall (l : List Char) (h : ∀ c ∈ l, c.isDigit = true) :
    allDigits l = true := by
  simp only [allDigits, List.all_eq_true]
  exact h

theorem notDot_of_digits (l : List Char) (h : ∀ c ∈ l, c.isDigit = true) :
    ∀ c ∈ l, (fun ch => decide (ch ≠ '.')) c = true := by
  intro c hc
  simp only [decide_eq_true_eq]
  exact isDigit_ne c '.' (h c hc) (by decide)

theorem parseDecimal_int (c : Char) (cl : List Char)
    (hd : ∀ x ∈ c :: cl, x.isDigit = true) :
    parseDecimalChars (c :: cl) = some (digitsVal (c :: cl)) := by
  have hcd := hd c (List.mem_cons_self c cl)
  have hneg : (decide (c = '-')) = false := by
    simp only [decide_eq_false_iff_not]
    exact isDigit_ne c '-' hcd (by decide)
  simp only [parseDecimalChars, hneg, Bool.false_eq_true, if_false,
    takeWhile_all_of_forall _ _ (notDot_of_digits _ hd),
    dropWhile_all_of_forall _ _ (notDot_of_digits _ hd)]
  simp [allDigits_of_forall _ hd]

theorem parseDecimal_sep (c : Char) (ir fp : List Char)
    (hd : ∀ x ∈ c :: ir, x.isDigit = true) (hf : ∀ x ∈ fp, x.isDigit = true) :
    parseDecimalChars (c :: (ir ++ '.' :: fp))
      = some (digitsVal (c :: ir) + digitsVal fp / 10 ^ fp.length) := by
  have hcd := hd c (List.mem_cons_self c ir)
  have hneg : (decide (c = '-')) = false := by
    simp only [decide_eq_false_iff_not]
    exact isDigit_ne c '-' hcd (by decide)
  have ht : (c :: (ir ++ '.' :: fp)).takeWhile (fun ch => decide (ch ≠ '.'))
      = c :: ir := by
    rw [← List.cons_append]
    exact takeWhile_append_of_forall _ _ _ _ (notDot_of_digits _ hd) (by decide)
  have hdw : (c :: (ir ++ '.' :: fp)).dropWhile (fun ch => decide (ch ≠ '.'))
      = '.' :: fp := by
    rw [← List.cons_append]
    exact dropWhile_append_of_forall _ _ _ _ (notDot_of_digits _ hd) (by decide)
  have hany : (fp.any (fun x => decide (x = '.'))) = false := by
    rw [Bool.eq_false_iff]
    intro hcontra
    rw [List.any_eq_true] at hcontra
    obtain ⟨x, hx, hx2⟩ := hcontra
    exact isDigit_ne x '.' (hf x hx) (by decide) (of_decide_eq_true hx2)
  simp only [parseDecimalChars, hneg, Bool.false_eq_true, if_false, ht, hdw, hany]
  simp [allDigits_of_forall _ hd, allDigits_of_forall _ hf]

theorem sep_not_digit (sep : Char) (hsep : sep = '.' ∨ sep = ',') :
    sep.isDigit = false := by
  cases hsep with
  | inl h => subst h; decide
  | inr h => subst h; decide

theorem kc_not_digit (kc : Char) (hk : kc = 'k' ∨ kc = 'K') :
    kc.isDigit = false := by
  cases hk with
  | inl h => subst h; decide
  | inr h => subst h; decide

/-- The dosage pattern, anchored at the first dosage digit, on a name shaped
`<int-digits><sep><frac-digits>[kK]_<suffix>` with at most three integer
digits. -/
theorem matchDosageAt_sep (c : Char) (ir fp suf : List Char) (sep kc : Char)
    (hd : ∀ x ∈ c :: ir, x.isDigit = true)
    (hlen : (c :: ir).length ≤ 3)
    (hf : ∀ x ∈ fp, x.isDigit = true)
    (hsep : sep = '.' ∨ sep = ',')
    (hk : kc = 'k' ∨ kc = 'K') :
    matchDosageAt (c :: (ir ++ sep :: (fp ++ kc :: '_' :: suf)))
      = some (c :: (ir ++ sep :: fp)) := by
  have ht : (c :: (ir ++ sep :: (fp ++ kc :: '_' :: suf))).takeWhile Char.isDigit
      = c :: ir := by
    rw [← List.cons_append]
    exact takeWhile_append_of_forall _ _ _ _ hd (sep_not_digit sep hsep)
  have htake : (c :: ir).take 3 = c :: ir := List.take_of_length_le hlen
  have hdrop : (c :: (ir ++ sep :: (fp ++ kc :: '_' :: suf))).drop (c :: ir).length
      = sep :: (fp ++ kc :: '_' :: suf) := by
    rw [← List.cons_append]
    exact List.drop_left _ _
  have hsepb : (decide (sep = '.') || decide (sep = ',')) = true := by
    cases hsep with
    | inl h => subst h; decide
    | inr h => subst h; decide
  have hd2 : (fp ++ kc :: '_' :: suf).takeWhile Char.isDigit = fp :=
    takeWhile_append_of_forall _ _ _ _ hf (kc_not_digit kc hk)
  have hdrop2 : (fp ++ kc :: '_' :: suf).drop fp.length = kc :: '_' :: suf :=
    List.drop_left _ _
  have hkb : ((decide (kc = 'k') || decide (kc = 'K')) && decide ('_' = '_')) = true := by
    cases hk with
    | inl h => subst h; decide
    | inr h => subst h; decide
  simp only [matchDosageAt, ht, htake, List.isEmpty_cons, Bool.false_eq_true,
    if_false, hdrop, hsepb, eq_self_iff_true, if_true, List.length_singleton,
    List.drop_succ_cons, List.drop_zero, hd2, hdrop2, hkb]
  simp
  intro h
  exact hk.resolve_left h

/-- The dosage pattern on an integer dosage `<digits>[kK]_<suffix>` with at
most three digits. -/
theorem matchDosageAt_int (c : Char) (ir suf : List Char) (kc : Char)
    (hd : ∀ x ∈ c :: ir, x.isDigit = true)
    (hlen : (c :: ir).length ≤ 3)
    (hk : kc = 'k' ∨ kc = 'K') :
    matchDosageAt (c :: (ir ++ kc :: '_' :: suf)) = some (c :: ir) := by
  have ht : (c :: (ir ++ kc :: '_' :: suf)).takeWhile Char.isDigit = c :: ir := by
    rw [← List.cons_append]
    exact takeWhile_append_of_forall _ _ _ _ hd (kc_not_digit kc hk)
  have htake : (c :: ir).take 3 = c :: ir := List.take_of_length_le hlen
  have hdrop : (c :: (ir ++ kc :: '_' :: suf)).drop (c :: ir).length
      = kc :: '_' :: suf := by
    rw [← List.cons_append]
    exact List.drop_left _ _
  have hsepb : (decide (kc = '.') || decide (kc = ',')) = false := by
    cases hk with
    | inl h => subst h; decide
    | inr h => subst h; decide
  have hd2 : (kc :: '_' :: suf).takeWhile Char.isDigit = [] := by
    simp [List.takeWhile_cons, kc_not_digit kc hk]
  have hkb : ((decide (kc = 'k') || decide (kc = 'K')) && decide ('_' = '_')) = true := by
    cases hk with
    | inl h => subst h; decide
    | inr h => subst h; decide
  simp only [matchDosageAt, ht, htake, List.isEmpty_cons, Bool.false_eq_true,
    if_false, hdrop, hsepb, List.length_nil, List.drop_zero, hd2, hkb,
    eq_self_iff_true, if_true]
  simp
  intro h
  exact hk.resolve_left h

theorem afterFirstUnderscore_append (pre rest : List Char)
    (hpre : ∀ c ∈ pre, c ≠ '_') :
    afterFirstUnderscore (pre ++ '_' :: rest) = rest := by
  unfold afterFirstUnderscore
  rw [List.span_eq_take_drop,
    dropWhile_append_of_forall _ pre '_' rest
      (fun c hc => decide_eq_true (hpre c hc)) (by decide)]

/-- C7 (counterexample): `"Xe_1234,5k_1"` carries the dosage `1234,5`, a
decimal number in the claimed naming convention, but the regex group
`\d{1,3}[.,]?\d*` caps the integer part at three digits, so the leftmost
match starts at the `2` and the extracted value is `234.5`, not `1234.5`. -/
theorem dosage_truncates_long_integer_part :
    extract_dosage_from_filename "Xe_1234,5k_1" = some (469 / 2) ∧
    (469 / 2 : ℚ) ≠ 2469 / 2 := by
  constructor
  · with_unfolding_all decide
  · with_unfolding_all decide

/-- C7 (amended): on names `<prefix>_<dosage>[kK]_<suffix>` whose prefix has
no underscore and whose dosage is a decimal numeral with an integer part of
one to three digits (with `.` or `,` as separator, or no fractional part at
all), extraction returns the numeral's value; and on the spec's examples it
returns `5.0`, `12.5` and `None` respectively. -/
theorem dosage_extraction_spec :
    (∀ (pre ir fp suf : List Char) (c sep kc : Char),
      (∀ x ∈ pre, x ≠ '_') →
      (∀ x ∈ c :: ir, x.isDigit = true) → (c :: ir).length ≤ 3 →
      (∀ x ∈ fp, x.isDigit = true) →
      sep = '.' ∨ sep = ',' → kc = 'k' ∨ kc = 'K' →
      extract_dosage_from_filename
          (String.mk (pre ++ '_' :: c :: (ir ++ sep :: (fp ++ kc :: '_' :: suf))))
        = some (digitsVal (c :: ir) + digitsVal fp / 10 ^ fp.length)) ∧
    (∀ (pre ir suf : List Char) (c kc : Char),
      (∀ x ∈ pre, x ≠ '_') →
      (∀ x ∈ c :: ir, x.isDigit = true) → (c :: ir).length ≤ 3 →
      kc = 'k' ∨ kc = 'K' →
      extract_dosage_from_filename
          (String.mk (pre ++ '_' :: c :: (ir ++ kc :: '_' :: suf)))
        = some (digitsVal (c :: ir))) ∧
    extract_dosage_from_filename "Xe_5K_1" = some 5 ∧
    extract_dosage_from_filename "Xe_12,5k_2" = some (25 / 2) ∧
    extract_dosage_from_filename "Xe_NoDose_3" = none := by
  refine ⟨?_, ?_, ?_, ?_, ?_⟩
  · intro pre ir fp suf c sep kc hpre hd hlen hf hsep hk
    unfold extract_dosage_from_filename
    have hdata : (String.mk
        (pre ++ '_' :: c :: (ir ++ sep :: (fp ++ kc :: '_' :: suf)))).data
        = pre ++ '_' :: c :: (ir ++ sep :: (fp ++ kc :: '_' :: suf)) := rfl
    rw [hdata, afterFirstUnderscore_append _ _ hpre]
    simp only [searchDosage, matchDosageAt_sep c ir fp suf sep kc hd hlen hf hsep hk]
    have hdi : ∀ x ∈ ir, x.isDigit = true :=
      fun x hx => hd x (List.mem_cons_of_mem c hx)
    have hmap : (c :: (ir ++ sep :: fp)).map commaToDot = c :: (ir ++ '.' :: fp) := by
      have hc : commaToDot c = c := by
        have := isDigit_ne c ',' (hd c (List.mem_cons_self c ir)) (by decide)
        simp [commaToDot, this]
      have h3 : commaToDot sep = '.' := by
        cases hsep with
        | inl h => subst h; simp [commaToDot]
        | inr h => subst h; simp [commaToDot]
      simp only [List.map_cons, List.map_append, hc, h3,
        map_commaToDot_of_digits ir hdi, map_commaToDot_of_digits fp hf]
    rw [hmap, parseDecimal_sep c ir fp hd hf]
  · intro pre ir suf c kc hpre hd hlen hk
    unfold extract_dosage_from_filename
    have hdata : (String.mk (pre ++ '_' :: c :: (ir ++ kc :: '_' :: suf))).data
        = pre ++ '_' :: c :: (ir ++ kc :: '_' :: suf) := rfl
    rw [hdata, afterFirstUnderscore_append _ _ hpre]
    simp only [searchDosage, matchDosageAt_int c ir suf kc hd hlen hk]
    have hdi : ∀ x ∈ ir, x.isDigit = true :=
      fun x hx => hd x (List.mem_cons_of_mem c hx)
    have hmap : (c :: ir).map commaToDot = c :: ir :=
      map_commaToDot_of_digits _ hd
    rw [hmap, parseDecimal_int c ir hd]
  · with_unfolding_all decide
  · with_unfolding_all decide
  · with_unfolding_all decide

/-- Witness for the amended C7: `"Xe_12,5k_2"` decomposed per the naming
convention gives `12 + 5/10`. -/
theorem dosage_extraction_spec_witness :
    extract_dosage_from_filename
        (String.mk (['X', 'e'] ++ '_' :: '1' :: (['2'] ++ ',' :: (['5'] ++ 'k' :: '_' :: ['2']))))
      = some (digitsVal ['1', '2'] + digitsVal ['5'] / 10 ^ (['5'] : List Char).length) :=
  dosage_extraction_spec.1 ['X', 'e'] ['2'] ['5'] ['2'] '1' ',' 'k'
    (by decide) (by decide) (by decide) (by decide) (Or.inr rfl) (Or.inl rfl)

/-! ## Channel-parser lemmas -/

theorem optionTraverse_length {α β : Type} (l : List α) (g : α → Option β)
    (r : List β) (h : optionTraverse l g = some r) : r.length = l.length := by
  induction l generalizing r with
  | nil =>
    simp only [optionTraverse, Option.some.injEq] at h
    subst h
    rfl
  | cons a tl ih =>
    simp only [optionTraverse] at h
    cases hga : g a with
    | none => rw [hga] at h; cases h
    | some b =>
      rw [hga] at h
      cases htl : optionTraverse tl g with
      | none => rw [htl] at h; cases h
      | some bs =>
        rw [htl] at h
        injection h with h
        subst h
        simp [ih bs htl]

theorem optionTraverse_get? {α β : Type} (l : List α) (g : α → Option β)
    (r : List β) (h : optionTraverse l g = some r) :
    ∀ j a, l.get? j = some a → r.get? j = g a := by
  induction l generalizing r with
  | nil => intro j a hj; simp at hj
  | cons a0 tl ih =>
    intro j a hj
    simp only [optionTraverse] at h
    cases hga : g a0 with
    | none => rw [hga] at h; cases h
    | some b =>
      rw [hga] at h
      cases htl : optionTraverse tl g with
      | none => rw [htl] at h; cases h
      | some bs =>
        rw [htl] at h
        injection h with h
        subst h
        cases j with
        | zero =>
          simp only [List.get?_cons_zero, Option.some.injEq] at hj
          subst hj
          simp [hga]
        | succ n =>
          simp only [List.get?_cons_succ] at hj ⊢
          exact ih bs htl n a hj

theorem name_underscore_injective (base : String) :
    Function.Injective (fun h => base ++ "_" ++ h) := by
  intro h1 h2 he
  apply String.ext
  have hd : (base ++ "_" ++ h1).data = (base ++ "_" ++ h2).data :=
    congrArg String.data he
  rw [String.data_append, String.data_append] at hd
  exact List.append_cancel_left hd

/-- C3 (counterexample): a file whose two header tokens are both `"A"` parses
without error, but the two channels collide on the dictionary key `"E_A"`
(line 73), so the parse yields one channel, not two. -/
theorem parse_duplicate_headers_collapse :
    (parseChannels fileDup).map List.length = some 1 ∧
    (parseHeaders fileDup.headerTokens).length = 2 := by
  constructor
  · with_unfolding_all decide
  · with_unfolding_all decide

/-- C3 (amended): for a raw file with `N` pairwise-distinct header channel
names and `M` data rows whose cells all convert, parsing yields exactly `N`
channels, the `i`-th named `{experiment_name}_{header i}` and holding the
`M - 1` `(time, value)` pairs taken from columns 2 and 3 of the `i`-th
3-column block of every data row but the first, after comma-to-dot
normalisation (`rowEntry`). -/
theorem parse_channels_spec (f : RawFile) (chans : List (String × List (ℚ × ℚ)))
    (hnd : (parseHeaders f.headerTokens).Nodup)
    (hP : parseChannelsList f = some chans) :
    chans.length = (parseHeaders f.headerTokens).length ∧
    parseChannels f = some chans ∧
    ∀ i hname, (parseHeaders f.headerTokens).get? i = some hname →
      ∃ es, chans.get? i = some (f.name ++ "_" ++ hname, es) ∧
        es.length = f.dataRows.length - 1 ∧
        ∀ j r, (f.dataRows.drop 1).get? j = some r → es.get? j = rowEntry i r := by
  have hlen : chans.length = (parseHeaders f.headerTokens).length := by
    have h := optionTraverse_length _ _ _ hP
    rwa [List.enum_length] at h
  have hget : ∀ i hname, (parseHeaders f.headerTokens).get? i = some hname →
      chans.get? i = (channelEntries f.dataRows i).map
        (fun es => (f.name ++ "_" ++ hname, es)) := by
    intro i hname hi
    have henum : (parseHeaders f.headerTokens).enum.get? i = some (i, hname) := by
      rw [List.get?_enum, hi]
      rfl
    exact optionTraverse_get? _ _ _ hP i (i, hname) henum
  have hstep : ∀ i hname, (parseHeaders f.headerTokens).get? i = some hname →
      ∃ es, chans.get? i = some (f.name ++ "_" ++ hname, es) ∧
        es.length = f.dataRows.length - 1 ∧
        ∀ j r, (f.dataRows.drop 1).get? j = some r → es.get? j = rowEntry i r := by
    intro i hname hi
    have hci := hget i hname hi
    cases hce : channelEntries f.dataRows i with
    | none =>
      rw [hce] at hci
      simp only [Option.map_none'] at hci
      obtain ⟨hlt, -⟩ := List.get?_eq_some.mp hi
      have hne : chans.get? i ≠ none := by
        rw [ne_eq, List.get?_eq_none]
        push_neg
        rw [hlen]
        exact hlt
      exact absurd hci hne
    | some es =>
      rw [hce] at hci
      refine ⟨es, by simpa using hci, ?_, ?_⟩
      · have h := optionTraverse_length _ _ _ hce
        rwa [List.length_drop] at h
      · intro j r hj
        exact optionTraverse_get? _ _ _ hce j r hj
  refine ⟨hlen, ?_, hstep⟩
  have hkeys : chans.map (·.1)
      = (parseHeaders f.headerTokens).map (fun h => f.name ++ "_" ++ h) := by
    apply List.ext_get?
    intro n
    rw [List.get?_map, List.get?_map]
    cases hn : (parseHeaders f.headerTokens).get? n with
    | none =>
      have h1 : (parseHeaders f.headerTokens).length ≤ n := List.get?_eq_none.mp hn
      have h2 : chans.get? n = none := by
        rw [List.get?_eq_none, hlen]
        exact h1
      rw [h2]
      rfl
    | some hname =>
      obtain ⟨es, hes, -, -⟩ := hstep n hname hn
      rw [hes]
      rfl
  have hnodup : (chans.map (·.1)).Nodup := by
    rw [hkeys]
    exact hnd.map (name_underscore_injective f.name)
  unfold parseChannels
  rw [hP]
  rw [Option.map_some']
  rw [foldl_dinsert_of_disjoint chans [] hnodup (fun p hp => rfl)]
  rw [List.nil_append]

/-- Witness for the amended C3: a two-channel, three-row file. -/
theorem parse_channels_spec_witness :
    parseChannels fileTwo
      = some [("E_Ion", [((1 : ℚ)/2, (2 : ℚ)), (1, 3)]),
              ("E_Temp", [(3/2, 100), (2, 110)])] :=
  (parse_channels_spec fileTwo _ (by with_unfolding_all decide)
    (by with_unfolding_all decide)).2.1

/-! ## Integration-engine lemmas -/

/-- Warnings only accumulate: a run started with pending warnings equals the
fresh run with those warnings prefixed. -/
theorem fullLoop_warns (st : DMState) (w : Nat) :
    ∀ (l : List (String × List String)) (res : List (ℚ × ℚ)) (warns : List String),
      fullLoop st w l (res, warns)
        = (fullLoop st w l (res, [])).map (fun pr => (pr.1, warns ++ pr.2)) := by
  intro l
  induction l with
  | nil =>
    intro res warns
    simp [fullLoop]
  | cons p rest ih =>
    intro res warns
    obtain ⟨fname, dfNames⟩ := p
    cases hx : extract_dosage_from_filename fname with
    | none =>
      simp only [fullLoop, hx]
      rw [ih res (warns ++ [fname]), ih res ([] ++ [fname])]
      cases fullLoop st w rest (res, []) with
      | none => rfl
      | some pr => simp
    | some d =>
      cases htd : dlookup st.trimmed_dataframes fname with
      | none => simp [fullLoop, hx, htd]
      | some tdfs =>
        cases htn : findTempName tdfs with
        | none =>
          simp only [fullLoop, hx, htd, htn]
          exact ih res warns
        | some tn =>
          cases hcs : channelSum tdfs tn (smoothedTempOf tdfs tn w) dfNames 0 with
          | none => simp [fullLoop, hx, htd, htn, hcs]
          | some total =>
            simp only [fullLoop, hx, htd, htn, hcs]
            exact ih (dinsert res d total) warns

theorem lastHit_fold_aux (d : ℚ) (ch : String → Option (Option ℚ)) :
    ∀ (names : List String) (o : Option (Option ℚ)),
      names.foldl (fun a dn => match ch dn with
          | none => a
          | some r => dinsert a d r)
        (match o with
         | none => ([] : List (ℚ × Option ℚ))
         | some r => [(d, r)])
      = match names.foldl (fun a dn => match ch dn with
            | none => a
            | some r => some r) o with
        | none => []
        | some r => [(d, r)] := by
  intro names
  induction names with
  | nil => intro o; rfl
  | cons dn rest ih =>
    intro o
    cases hc : ch dn with
    | none =>
      simp only [List.foldl_cons, hc]
      exact ih o
    | some r =>
      simp only [List.foldl_cons, hc]
      have hstart : dinsert (match o with
          | none => ([] : List (ℚ × Option ℚ))
          | some r0 => [(d, r0)]) d r
          = (match (some r : Option (Option ℚ)) with
             | none => ([] : List (ℚ × Option ℚ))
             | some r0 => [(d, r0)]) := by
        cases o with
        | none => rfl
        | some r0 => simp [dinsert]
      rw [hstart]
      exact ih (some r)

/-- The per-file ratio fold stores only the last produced ratio under the
dosage key. -/
theorem ratioFold_lastHit (d : ℚ) (ch : String → Option (Option ℚ))
    (names : List String) :
    names.foldl (fun a dn => match ch dn with
        | none => a
        | some r => dinsert a d r) []
      = match lastHit ch names with
        | none => []
        | some r => [(d, r)] :=
  lastHit_fold_aux d ch names none

/-- The per-file full-integration fold sums the Simpson integrals of the
non-temperature channels. -/
theorem channelSum_eq_sum (tdfs : FileDFs) (tn : String) (smT : List ℚ) :
    ∀ (names : List String) (acc : ℚ),
      (∀ dn ∈ names, dn = tn ∨ dcontains tdfs dn = true) →
      channelSum tdfs tn smT names acc
        = some (acc + ((names.filter (fun dn => decide (dn ≠ tn))).map
            (fun dn => simpsQ (((dlookup tdfs dn).getD []).map (·.2)) smT)).sum) := by
  intro names
  induction names with
  | nil =>
    intro acc h
    simp [channelSum]
  | cons dn rest ih =>
    intro acc h
    by_cases hdn : dn = tn
    · simp only [channelSum]
      rw [if_pos hdn,
        ih acc (fun x hx => h x (List.mem_cons_of_mem dn hx))]
      simp [List.filter_cons, hdn]
    · have hc : dcontains tdfs dn = true :=
        (h dn (List.mem_cons_self dn rest)).resolve_left hdn
      obtain ⟨df, hdf⟩ : ∃ df, dlookup tdfs dn = some df := by
        rw [dcontains, Option.isSome_iff_exists] at hc
        exact hc
      simp only [channelSum, if_neg hdn, hdf]
      rw [ih _ (fun x hx => h x (List.mem_cons_of_mem dn hx))]
      simp only [List.filter_cons, ne_eq, hdn, not_false_eq_true, decide_True,
        if_true, List.map_cons, List.sum_cons, hdf, Option.getD_some]
      rw [Option.some_inj]
      ring

/-- C8: whenever a selected ion channel's right sub-window is non-empty but
its Simpson integral is exactly zero (and the left sub-window is non-empty),
ratio integration completes normally (`some`, no exception) and records the
`np.nan` "undefined" sentinel — modelled as the inner `none` — under the
experiment's dosage. -/
theorem ratio_zero_right_sentinel (st : DMState) (f dn : String) (d : ℚ)
    (tdfs : FileDFs) (tn : String) (ionDf : DF) (w : Nat) (ls le rs re' : ℚ)
    (hx : extract_dosage_from_filename f = some d)
    (htd : dlookup st.trimmed_dataframes f = some tdfs)
    (htn : findTempName tdfs = some tn)
    (hdn : ¬dn = tn)
    (hdf : dlookup tdfs dn = some ionDf)
    (hleft : (maskPairs (smoothedTempOf tdfs tn w) (ionDf.map (·.2)) ls le).isEmpty
        = false)
    (hright : (maskPairs (smoothedTempOf tdfs tn w) (ionDf.map (·.2)) rs re').isEmpty
        = false)
    (hzero : simpsQ
        ((maskPairs (smoothedTempOf tdfs tn w) (ionDf.map (·.2)) rs re').map (·.2))
        ((maskPairs (smoothedTempOf tdfs tn w) (ionDf.map (·.2)) rs re').map (·.1))
        = 0) :
    perform_ratio_integration st [(f, [dn])] w ls le rs re'
      = some ([(d, none)], []) := by
  have hcr : channelRatio tdfs tn (smoothedTempOf tdfs tn w) ls le rs re' dn
      = some none := by
    simp only [channelRatio, if_neg hdn, hdf]
    simp only [ratioForChannel, hleft, hright, Bool.or_self, Bool.false_eq_true,
      if_false, hzero, eq_self_iff_true, if_true]
  unfold perform_ratio_integration
  simp only [ratioLoop, hx, htd, htn, List.foldl_cons, List.foldl_nil, hcr]
  rfl

/-- Witness for C8: an ion channel that is zero on the right window
`[200, 300]`. -/
theorem ratio_zero_right_sentinel_witness :
    perform_ratio_integration storeZeroRight [("Xe_5k_1", ["ion"])] 1 100 100 200 300
      = some ([(5, none)], []) :=
  ratio_zero_right_sentinel storeZeroRight "Xe_5k_1" "ion" 5
    [("T_Temp", [(0, 100), (1, 200), (2, 300)]), ("ion", [(0, 7), (1, 0), (2, 0)])]
    "T_Temp" [(0, 7), (1, 0), (2, 0)] 1 100 100 200 300
    (by with_unfolding_all decide) (by with_unfolding_all decide)
    (by with_unfolding_all decide) (by with_unfolding_all decide)
    (by with_unfolding_all decide) (by with_unfolding_all decide)
    (by with_unfolding_all decide) (by with_unfolding_all decide)

/-- C9 (counterexample): the selected experiment `"Xe_5k_1"` has trimmed data
but no temperature table, so full integration skips it — but silently: the
result is `some ([], [])` with an empty warning list, although the claim
says the skip comes with a warning (the `QMessageBox.warning` of line 233 is
only reached on dosage-extraction failure; the `continue` of line 239 warns
nobody). -/
theorem full_integration_silent_skip :
    perform_full_integration storeSkip [("Xe_5k_1", ["ion_A"])] 1
      = some ([], []) := by
  with_unfolding_all decide

/-- C9 (amended): a selected experiment whose dosage cannot be extracted, or
whose trimmed data has no temperature table, is skipped — with a warning in
the first case, silently in the second — without crashing, contributing no
entry, and leaving the processing of the remaining selection unchanged. -/
theorem full_integration_skip_behaviour (st : DMState) (f : String)
    (dfs : List String) (rest : List (String × List String)) (w : Nat)
    (hbad : extract_dosage_from_filename f = none ∨
      ∃ tdfs, dlookup st.trimmed_dataframes f = some tdfs ∧ findTempName tdfs = none) :
    perform_full_integration st ((f, dfs) :: rest) w
      = (perform_full_integration st rest w).map
          (fun pr => (pr.1,
            (if (extract_dosage_from_filename f).isNone then [f] else []) ++ pr.2)) := by
  unfold perform_full_integration
  cases hx : extract_dosage_from_filename f with
  | none =>
    simp only [fullLoop, hx, Option.isNone_none, if_true]
    exact fullLoop_warns st w rest [] [f]
  | some d =>
    have hbad2 : ∃ tdfs, dlookup st.trimmed_dataframes f = some tdfs ∧
        findTempName tdfs = none := by
      cases hbad with
      | inl h => rw [hx] at h; cases h
      | inr h => exact h
    obtain ⟨tdfs, htd, htn⟩ := hbad2
    simp only [fullLoop, hx, htd, htn, Option.isNone_some, Bool.false_eq_true,
      if_false, List.nil_append]
    cases fullLoop st w rest ([], []) with
    | none => rfl
    | some pr => simp

/-- Witness for the amended C9 at the no-temperature experiment. -/
theorem full_integration_skip_behaviour_witness :
    perform_full_integration storeSkip [("Xe_5k_1", ["ion_A"])] 1
      = (perform_full_integration storeSkip [] 1).map
          (fun pr => (pr.1,
            (if (extract_dosage_from_filename "Xe_5k_1").isNone
             then ["Xe_5k_1"] else []) ++ pr.2)) :=
  full_integration_skip_behaviour storeSkip "Xe_5k_1" ["ion_A"] [] 1
    (Or.inr ⟨[("ion_A", [(0, 1), (1, 2)])],
      by with_unfolding_all decide, by with_unfolding_all decide⟩)

/-- C10: for one selected experiment, ratio integration stores under its
dosage the ratio of the **last** selected channel that produces one — each
channel's ratio overwrites the previous (`integration_ratios[dosage] = ratio`
sits inside the channel loop, line 328) — while full integration sums the
Simpson integrals of all selected non-temperature channels into a single
entry. -/
theorem ratio_overwrites_full_sums (st : DMState) (f : String)
    (names : List String) (d : ℚ) (tdfs : FileDFs) (tn : String) (w : Nat)
    (ls le rs re' : ℚ)
    (hx : extract_dosage_from_filename f = some d)
    (htd : dlookup st.trimmed_dataframes f = some tdfs)
    (htn : findTempName tdfs = some tn) :
    perform_ratio_integration st [(f, names)] w ls le rs re'
      = some ((match lastHit
            (channelRatio tdfs tn (smoothedTempOf tdfs tn w) ls le rs re') names with
          | none => []
          | some r => [(d, r)]), []) ∧
    ((∀ dn ∈ names, dn = tn ∨ dcontains tdfs dn = true) →
      perform_full_integration st [(f, names)] w
        = some ([(d, ((names.filter (fun dn => decide (dn ≠ tn))).map
            (fun dn => simpsQ (((dlookup tdfs dn).getD []).map (·.2))
              (smoothedTempOf tdfs tn w))).sum)], [])) := by
  constructor
  · unfold perform_ratio_integration
    simp only [ratioLoop, hx, htd, htn]
    rw [ratioFold_lastHit d
      (channelRatio tdfs tn (smoothedTempOf tdfs tn w) ls le rs re') names]
  · intro hp
    unfold perform_full_integration
    simp only [fullLoop, hx, htd, htn]
    rw [channelSum_eq_sum tdfs tn (smoothedTempOf tdfs tn w) names 0 hp]
    simp [fullLoop, dinsert]

set_option maxRecDepth 4000 in
/-- Witness for C10: two ion channels with different ratios (2 and 4); the
stored ratio is the second channel's 4, while full integration records the
sum 600 of both integrals. -/
theorem ratio_overwrites_full_sums_witness :
    perform_ratio_integration storeRatio [("Xe_5k_1", ["i1", "i2"])] 1 100 300 100 200
      = some ([(5, some 4)], []) ∧
    perform_full_integration storeRatio [("Xe_5k_1", ["i1", "i2"])] 1
      = some ([(5, 600)], []) := by
  have h := ratio_overwrites_full_sums storeRatio "Xe_5k_1" ["i1", "i2"] 5
    [("T_Temp", [(0, 100), (1, 200), (2, 300)]),
     ("i1", [(0, 1), (1, 1), (2, 1)]), ("i2", [(0, 0), (1, 2), (2, 4)])]
    "T_Temp" 1 100 300 100 200
    (by with_unfolding_all decide) (by with_unfolding_all decide)
    (by with_unfolding_all decide)
  constructor
  · rw [h.1]
    with_unfolding_all decide
  · rw [h.2 (by with_unfolding_all decide)]
    with_unfolding_all decide

end TPD
